import Mathlib

/-!
Verification of the cyder `OneDimPPMNuclide` nuclide-transport component
(`src/src/OneDimPPMNuclide.cpp`) against its natural-language specification.

Shallow embedding conventions:
* C++ `std::map<Iso, double>` concentration maps become association lists
  `List (Iso × ℚ)` with no duplicate keys; `double` arithmetic is embedded as
  exact rational arithmetic (the claims under scrutiny are exact algebraic
  identities, not floating-point statements).
* The transcendental functions the solver pulls from boost
  (`erfc`, `exp`, `pow(·,0.5)`) and the constant `pi` are abstract parameters
  bundled in `SolverFns`: every theorem quantifies over them, so the results
  hold for the real interpretations in particular.
* Fallible C++ code (assertions, exceptions, out-of-bounds vector writes)
  is embedded with `Except` / `Option`.
* Helpers that live in the repository outside the provided sources
  (`MatTools`, `NuclideModel::calc_conc_grad`, geometry) are modelled from the
  specification; each such definition says so in its doc comment.
-/

/-- Isotope identifier (e.g. 92235 for U-235); the element is `iso / 1000`. -/
abbrev Iso := Nat

/-- `IsoConcMap`: isotope → concentration, as an association list standing for
the C++ `std::map<Iso,double>`; well-formed maps have no duplicate keys. -/
abbrev IsoConcMap := List (Iso × ℚ)

/-- Gradient map (`ConcGradMap` in the C++). -/
abbrev ConcGradMap := List (Iso × ℚ)

/-- Flux map (`IsoFluxMap` in the C++). -/
abbrev IsoFluxMap := List (Iso × ℚ)

/-- Radius, embedded as a rational. -/
abbrev Radius := ℚ

/-- Lookup with default 0: the value `m[iso]` read from a C++ map (a missing
key reads as the value-initialised 0.0). -/
def lookupD (m : IsoConcMap) (iso : Iso) : ℚ :=
  (m.lookup iso).getD 0

/-- The transcendental functions used by `OneDimPPMNuclide::calculate_conc`,
kept abstract: `sqrtA` stands for `pow(·, 0.5)`, `expA` for `exp`, `erfcA`
for `boost::math::erfc`, `piA` for `boost::math::constants::pi`, and `Dtab`
for the per-element dispersion-coefficient lookup `mat_table_->D`. -/
structure SolverFns where
  sqrtA : ℚ → ℚ
  expA : ℚ → ℚ
  erfcA : ℚ → ℚ
  piA : ℚ
  Dtab : Nat → ℚ

/-- The retardation factor: the code hardcodes `double R = 1;`. -/
def oneDimR : ℚ := 1

/-- The denominator of the `Att0_frac` term in
`OneDimPPMNuclide::calculate_conc` (line 271):
`2*pow(D*R*(t-t0), 0.5)`. -/
def Att0_den (fns : SolverFns) (D : ℚ) (t0 t : ℤ) : ℚ :=
  2 * fns.sqrtA (D * oneDimR * ((t : ℚ) - (t0 : ℚ)))

/-- The `Att0` term of `calculate_conc` (lines 271-272):
`0.5*erfc((R*r - v*t)/(2*pow(D*R*(t-t0),0.5)))`. -/
def Att0_val (fns : SolverFns) (D v r : ℚ) (t0 t : ℤ) : ℚ :=
  (1/2) * fns.erfcA ((oneDimR * r - v * (t : ℚ)) / Att0_den fns D t0 t)

/-- Embedding of `OneDimPPMNuclide::calculate_conc(C_0, C_i, r, iso, t0, t)`
(lines 262-287), the scalar analytic advection-dispersion solution for one
isotope, transliterated local-by-local from the C++. -/
def calculate_conc (fns : SolverFns) (v : ℚ) (C_0 C_i : IsoConcMap) (r : ℚ)
    (iso : Iso) (t0 t : ℤ) : ℚ :=
  let D := fns.Dtab (iso / 1000)
  let R := oneDimR
  let At_frac := (R * r - v * (t : ℚ)) / (2 * fns.sqrtA (D * R * (t : ℚ)))
  let At := (1/2) * fns.erfcA At_frac
  let Att0 := Att0_val fns D v r t0 t
  let A := At - Att0
  let B1_frac := (R * r - v * (t : ℚ)) / (2 * fns.sqrtA (D * R * (t : ℚ)))
  let B1 := (1/2) * fns.erfcA B1_frac
  let B2_exp := -(R * r - v * (t : ℚ)) ^ 2 / (4 * D * R * (t : ℚ))
  let B2 := fns.sqrtA (v * v * (t : ℚ) / (fns.piA * R * D)) * fns.expA B2_exp
  let B3_exp := v * r / D
  let B3_frac := (R * r + v * (t : ℚ)) / (2 * fns.sqrtA (D * R * (t : ℚ)))
  let B3_factor := -(1/2) * (1 + (v * r) / D + (v * v * (t : ℚ)) / (D * R))
  let B3 := B3_factor * fns.expA B3_exp * fns.erfcA B3_frac
  let B := lookupD C_i iso * (B1 + B2 + B3)
  lookupD C_0 iso * A + B

/-- The solution formula exactly as the specification words it
(spec §4.1 / claim C2): `C = C0·A + B` with
`A = At − Att0`, `At = ½erfc((Rr−vt)/(2√(DRt)))`,
`Att0 = ½erfc((Rr−vt)/(2√(DR(t−t0))))`, and `B = Ci·(B1+B2+B3)` with
`B1 = ½erfc((Rr−vt)/(2√(DRt)))`,
`B2 = √(v²t/(πRD))·exp(−(Rr−vt)²/(4DRt))`,
`B3 = −½(1+vr/D+v²t/(DR))·exp(vr/D)·erfc((Rr+vt)/(2√(DRt)))`. -/
def calculate_conc_spec (fns : SolverFns) (D v R C0v Civ r : ℚ) (t0 t : ℤ) : ℚ :=
  let At := (1/2) * fns.erfcA ((R * r - v * (t : ℚ)) / (2 * fns.sqrtA (D * R * (t : ℚ))))
  let Att0 := (1/2) * fns.erfcA ((R * r - v * (t : ℚ)) / (2 * fns.sqrtA (D * R * ((t : ℚ) - (t0 : ℚ)))))
  let A := At - Att0
  let B1 := (1/2) * fns.erfcA ((R * r - v * (t : ℚ)) / (2 * fns.sqrtA (D * R * (t : ℚ))))
  let B2 := fns.sqrtA (v ^ 2 * (t : ℚ) / (fns.piA * R * D)) * fns.expA (-(R * r - v * (t : ℚ)) ^ 2 / (4 * D * R * (t : ℚ)))
  let B3 := -(1/2) * (1 + v * r / D + v ^ 2 * (t : ℚ) / (D * R)) * fns.expA (v * r / D) * fns.erfcA ((R * r + v * (t : ℚ)) / (2 * fns.sqrtA (D * R * (t : ℚ))))
  let B := Civ * (B1 + B2 + B3)
  C0v * A + B

/-- Modelled from the spec: `MatTools::scaleConcMap` is not under `src/`;
spec §9 — "every transform (scale/add/subtract) returns a new map" — and
§4.3's "snapshot scaled by pore volume": multiply every value by `s`. -/
def scaleConcMap (m : IsoConcMap) (s : ℚ) : IsoConcMap :=
  m.map (fun e => (e.1, e.2 * s))

/-- Modelled from the spec: `MatTools::addConcMaps` is not under `src/`;
keyed pointwise addition over the union of key sets. -/
def addConcMaps (a b : IsoConcMap) : IsoConcMap :=
  a.map (fun e => (e.1, e.2 + lookupD b e.1)) ++
    b.filter (fun e => (a.lookup e.1).isNone)

/-- Modelled from the spec: `NuclideModel::calc_conc_grad` is not under
`src/`; spec §4.3 — one-sided difference gradient
`(c_ext − c_int)/(r_ext − r_int)`. -/
def calc_conc_grad (c_ext c_int : ℚ) (r_ext r_int : Radius) : ℚ :=
  (c_ext - c_int) / (r_ext - r_int)

/-- Embedding of `OneDimPPMNuclide::neumann_bc(c_ext, r_ext)`
(lines 167-192): the internal snapshot `c_int` (at radius `r_int`, the
geometric radial midpoint) and the external map are combined into a gradient
map — isotopes in both sides use both concentrations, an isotope present on
one side only treats the other side as 0. -/
def neumann_bc (c_int : IsoConcMap) (r_int : Radius) (c_ext : IsoConcMap)
    (r_ext : Radius) : ConcGradMap :=
  (c_int.map (fun e =>
    (e.1,
      if (c_ext.lookup e.1).isSome then
        calc_conc_grad (lookupD c_ext e.1) (lookupD c_int e.1) r_ext r_int
      else
        calc_conc_grad 0 (lookupD c_int e.1) r_ext r_int))) ++
  ((c_ext.filter (fun e => (c_int.lookup e.1).isNone)).map (fun e =>
    (e.1, calc_conc_grad (lookupD c_ext e.1) 0 r_ext r_int)))

/-- Modelled from the spec: the single-isotope `dirichlet_bc(iso)` overload
(declared on the `NuclideModel` base, not under `src/`); spec §6 —
`dirichlet(isotope) -> value`, the snapshot's concentration of that isotope. -/
def dirichlet_bc_iso (c_int : IsoConcMap) (iso : Iso) : ℚ :=
  lookupD c_int iso

/-- Embedding of `OneDimPPMNuclide::cauchy_bc(c_ext, r_ext)` (lines 195-209):
for every isotope of the Neumann gradient map, flux
`-mat_table_->D(iso/1000) * gradient + dirichlet_bc(iso) * v`. -/
def cauchy_bc (Dtab : Nat → ℚ) (v : ℚ) (c_int : IsoConcMap) (r_int : Radius)
    (c_ext : IsoConcMap) (r_ext : Radius) : IsoFluxMap :=
  (neumann_bc c_int r_int c_ext r_ext).map (fun e =>
    (e.1, -Dtab (e.1 / 1000) * e.2 + dirichlet_bc_iso c_int e.1 * v))

/-- Modelled from the spec: `MatTools::V_f` is not under `src/`; glossary —
"Pore volume: volume accessible to fluid/solute = total volume × porosity"
(used by `OneDimPPMNuclide::V_f`, lines 409-411). -/
def V_f_fn (V_T porosity : ℚ) : ℚ :=
  V_T * porosity

/-- Embedding of `OneDimPPMNuclide::source_term_bc()` (lines 148-159): the
current snapshot scaled by the pore volume, flattened into a composition map
plus the accumulated total mass. -/
def source_term_bc (c_int : IsoConcMap) (V_T porosity : ℚ) :
    IsoConcMap × ℚ :=
  let conc_map := scaleConcMap c_int (V_f_fn V_T porosity)
  (conc_map, (conc_map.map Prod.snd).sum)

/-- A material parcel (`mat_rsrc_ptr`): isotope → mass entries. -/
abbrev Parcel := List (Iso × ℚ)

/-- Total mass of one parcel. -/
def parcelTotal (p : Parcel) : ℚ :=
  (p.map Prod.snd).sum

/-- Mass of one isotope inside one parcel. -/
def parcelIso (p : Parcel) (iso : Iso) : ℚ :=
  ((p.filter (fun e => e.1 = iso)).map Prod.snd).sum

/-- Total mass held across a ledger (`wastes_` deque). -/
def availTotal (ws : List Parcel) : ℚ :=
  (ws.map parcelTotal).sum

/-- Mass of one isotope held across a ledger. -/
def isoAvail (ws : List Parcel) (iso : Iso) : ℚ :=
  (ws.map (fun p => parcelIso p iso)).sum

/-- Error kinds raised by the embedded operations (spec §7). -/
inductive CyderErr where
  | PreconditionViolation
  | InsufficientInventory
deriving DecidableEq, Repr

/-- Oldest-parcel-first removal of `need` mass from the ledger, splitting the
parcel at the boundary of the requested amount (each entry of the split
parcel is scaled by the removed fraction). Returns (removed, remaining). -/
def takeOldest : ℚ → List Parcel → Parcel × List Parcel
  | _, [] => ([], [])
  | need, p :: ps =>
    if parcelTotal p ≤ need then
      let pr := takeOldest (need - parcelTotal p) ps
      (p ++ pr.1, pr.2)
    else
      (p.map (fun e => (e.1, e.2 * (need / parcelTotal p))),
       p.map (fun e => (e.1, e.2 * (1 - need / parcelTotal p))) :: ps)

/-- Modelled from the spec: `MatTools::extract` is not under `src/`;
spec §4.4 — "removes exactly mass, proportioned by composition,
oldest-parcel-first, splitting a parcel at the boundary of the requested
amount; fails with InsufficientInventory if any requested isotope's available
mass is less than demanded; returns the removed mass as a new parcel.
Never leaves negative inventory." The demanded mass of isotope `iso` is
`kg` times `iso`'s fraction of the composition. -/
def MatTools.extract (comp : Parcel) (kg : ℚ) (ws : List Parcel) :
    Except CyderErr (Parcel × List Parcel) :=
  if 0 ≤ kg ∧ kg ≤ availTotal ws ∧
      ∀ e ∈ comp, kg * e.2 / parcelTotal comp ≤ isoAvail ws e.1 then
    Except.ok (takeOldest kg ws)
  else
    Except.error CyderErr.InsufficientInventory

/-- Modelled from the spec: `MatTools::sum_mats` is not under `src/`;
spec §4.2 — "sum all ledger parcels to total mass": the pooled parcel
entries together with the total mass. -/
def MatTools.sum_mats (ws : List Parcel) : Parcel × ℚ :=
  (ws.foldr (fun p acc => p ++ acc) [], availTotal ws)

/-- Modelled from the spec: `MatTools::comp_to_conc_map` is not under `src/`;
spec §4.2 — "convert to a concentration map via pore volume": each isotope's
share of the total mass (its composition fraction times `mass`) divided by
the volume `Vf`. -/
def MatTools.comp_to_conc_map (comp : Parcel) (mass Vf : ℚ) : IsoConcMap :=
  (comp.map Prod.fst).dedup.map
    (fun iso => (iso, mass * (parcelIso comp iso / parcelTotal comp) / Vf))

/-- One ledger operation (spec §4.4 public operations). -/
inductive LedgerOp where
  | absorb (p : Parcel)
  | extract (comp : Parcel) (kg : ℚ)

/-- Run a sequence of ledger operations from a starting ledger: `absorb` is
`wastes_.push_back` (`OneDimPPMNuclide::absorb`, lines 106-114), `extract`
delegates to `MatTools::extract` (lines 117-127); a failure propagates. -/
def runOps : List LedgerOp → List Parcel → Except CyderErr (List Parcel)
  | [], ws => Except.ok ws
  | LedgerOp.absorb p :: ops, ws => runOps ops (ws ++ [p])
  | LedgerOp.extract c kg :: ops, ws =>
    match MatTools.extract c kg ws with
    | Except.ok pr => runOps ops pr.2
    | Except.error e => Except.error e

/-- Sum of the masses of all absorbed parcels in an operation sequence. -/
def absorbedSum : List LedgerOp → ℚ
  | [] => 0
  | LedgerOp.absorb p :: ops => parcelTotal p + absorbedSum ops
  | LedgerOp.extract _ _ :: ops => absorbedSum ops

/-- Sum of the masses requested by all extract operations in a sequence. -/
def extractedSum : List LedgerOp → ℚ
  | [] => 0
  | LedgerOp.absorb _ :: ops => extractedSum ops
  | LedgerOp.extract _ kg :: ops => kg + extractedSum ops

/-- Every entry of every parcel of the ledger is non-negative
(spec §3: isotope→mass mappings are never negative). -/
def ledgerNonneg (ws : List Parcel) : Prop :=
  ∀ p ∈ ws, ∀ e ∈ p, 0 ≤ Prod.snd e

/-- An absorb operation carries a parcel with non-negative entries; extract
operations are unconstrained. -/
def opNonneg (op : LedgerOp) : Prop :=
  match op with
  | LedgerOp.absorb p => ∀ e ∈ p, 0 ≤ Prod.snd e
  | LedgerOp.extract _ _ => True

instance (op : LedgerOp) : Decidable (opNonneg op) :=
  match op with
  | LedgerOp.absorb p => inferInstanceAs (Decidable (∀ e ∈ p, 0 ≤ Prod.snd e))
  | LedgerOp.extract _ _ => inferInstanceAs (Decidable True)

/-- An operation sequence only absorbs parcels with non-negative entries. -/
def opsNonneg (ops : List LedgerOp) : Prop :=
  ∀ op ∈ ops, opNonneg op

/-- Cell state of `OneDimPPMNuclide`: transport parameters, read-only
geometry inputs (total volume `V_T`, radial midpoint `r_mid`), the waste
ledger, and the two histories. -/
structure PPMState where
  v : ℚ
  porosity : ℚ
  V_T : ℚ
  r_mid : Radius
  last_updated : ℤ
  wastes : List Parcel
  vec_hist : List (ℤ × (Parcel × ℚ))
  conc_hist : List (ℤ × IsoConcMap)

/-- `history[t] = m` on a time-keyed C++ map: replace the entry at `t` when
present (last write wins), append otherwise. -/
def histSet {α : Type} (h : List (ℤ × α)) (t : ℤ) (m : α) : List (ℤ × α) :=
  if (h.lookup t).isSome then
    h.map (fun e => if e.1 = t then (t, m) else e)
  else
    h ++ [(t, m)]

/-- Embedding of `OneDimPPMNuclide::conc_profile(C_0, r, dt)`
(lines 236-247): for every isotope of `C_0`, call the scalar solver as
`calculate_conc(C_0, C_0, r, iso, dt, dt+dt)`. -/
def conc_profile (fns : SolverFns) (v : ℚ) (C_0 : IsoConcMap) (r : Radius)
    (dt : ℤ) : IsoConcMap :=
  C_0.map (fun e => (e.1, calculate_conc fns v C_0 C_0 r e.1 dt (dt + dt)))

/-- Embedding of `OneDimPPMNuclide::update_vec_hist(the_time)`
(lines 212-214): `vec_hist_[the_time] = MatTools::sum_mats(wastes_)`. -/
def update_vec_hist (s : PPMState) (the_time : ℤ) : PPMState :=
  { s with vec_hist := histSet s.vec_hist the_time (MatTools.sum_mats s.wastes) }

/-- Embedding of `OneDimPPMNuclide::update_conc_hist(the_time, mats)`
(lines 221-233): the `assert(last_updated() <= the_time)` precondition
becomes a `PreconditionViolation` error; on success the ledger is summed,
converted to a concentration map via the pore volume, run through
`conc_profile` at the radial midpoint, and stored at key `the_time`. -/
def update_conc_hist (fns : SolverFns) (s : PPMState) (the_time : ℤ) :
    Except CyderErr PPMState :=
  if s.last_updated ≤ the_time then
    let sum_pair := MatTools.sum_mats s.wastes
    let C_0 := MatTools.comp_to_conc_map sum_pair.1 sum_pair.2
      (V_f_fn s.V_T s.porosity)
    let r_calc := s.r_mid
    let to_ret := conc_profile fns s.v C_0 r_calc the_time
    Except.ok { s with last_updated := the_time,
                       conc_hist := histSet s.conc_hist the_time to_ret }
  else
    Except.error CyderErr.PreconditionViolation

/-- Embedding of `OneDimPPMNuclide::update(the_time)` (lines 141-145):
`update_vec_hist`, then `update_conc_hist`, then `set_last_updated`. -/
def update (fns : SolverFns) (s : PPMState) (the_time : ℤ) :
    Except CyderErr PPMState :=
  (update_conc_hist fns (update_vec_hist s the_time) the_time).map
    (fun s2 => { s2 with last_updated := the_time })

/-- Embedding of `OneDimPPMNuclide::transportNuclides(the_time)`
(lines 130-138): delegates to `update`. -/
def transportNuclides (fns : SolverFns) (the_time : ℤ) (s : PPMState) :
    Except CyderErr PPMState :=
  update fns s the_time

/-- `fmap.find(k)` on the radius-keyed C++ `std::map<double, IsoConcMap>`:
first entry whose key equals `k`. -/
def findKeyQ (l : List (ℚ × IsoConcMap)) (k : ℚ) : Option IsoConcMap :=
  match l with
  | [] => none
  | e :: es => if e.1 = k then some e.2 else findKeyQ es k

/-- Embedding of `OneDimPPMNuclide::trap_rule(a, b, n, fmap)`
(lines 319-350), transliterated from the C++: `scalar = (b-a)/(2*n)`; the
endpoint samples are looked up and erased from `fmap`, then pushed — without
any scaling — as `terms[0]` and `terms[1]`; each remaining sample is scaled
by `2*scalar` and written at `terms[(size_t)radius]` (the C++ indexes the
`terms` vector with the `double` sample radius: truncation for a
non-negative radius, undefined behaviour — embedded as `none` — for a
negative radius or an index past the end); finally the terms are summed. -/
def trap_rule (a b : ℚ) (n : ℕ) (fmap : List (ℚ × IsoConcMap)) :
    Option IsoConcMap :=
  let scalar := (b - a) / (2 * (n : ℚ))
  let f_0 := (findKeyQ fmap a).getD []
  let fmap1 := fmap.filter (fun e => e.1 ≠ a)
  let f_n := (findKeyQ fmap1 b).getD []
  let fmap2 := fmap1.filter (fun e => e.1 ≠ b)
  let terms0 : List IsoConcMap := [f_0, f_n]
  let termsOpt := fmap2.foldl
    (fun acc e =>
      acc.bind (fun terms =>
        if 0 ≤ e.1 ∧ (⌊e.1⌋).toNat < terms.length then
          some (terms.set (⌊e.1⌋).toNat (scaleConcMap e.2 (2 * scalar)))
        else
          none))
    (some terms0)
  termsOpt.map (fun terms => terms.foldl addConcMaps [])

/-- The ledger-derived concentration map that `update_conc_hist` feeds to the
solver: total parcel mass converted via the pore volume (lines 225-226). -/
def ledgerC0 (s : PPMState) : IsoConcMap :=
  MatTools.comp_to_conc_map (MatTools.sum_mats s.wastes).1
    (MatTools.sum_mats s.wastes).2 (V_f_fn s.V_T s.porosity)

/-- Concrete interpretation of the abstract solver functions, used by the
closed witness statements. -/
def testFns : SolverFns :=
  { sqrtA := fun _ => 0, expA := fun x => x, erfcA := fun _ => 1,
    piA := 0, Dtab := fun _ => 1 }

/-- A concrete cell state used by the closed witness statements. -/
def testState : PPMState :=
  { v := 1, porosity := 1/2, V_T := 2, r_mid := 1, last_updated := 0,
    wastes := [[(92235, 10)]], vec_hist := [], conc_hist := [] }

theorem lookup_append {κ α : Type} [BEq κ] [LawfulBEq κ]
    (l1 l2 : List (κ × α)) (k : κ) :
    (l1 ++ l2).lookup k = ((l1.lookup k).or (l2.lookup k)) := by
  induction l1 with
  | nil => simp [List.lookup]
  | cons e l ih =>
    by_cases h : k = e.1
    · simp [List.lookup, h]
    · simp [List.lookup, beq_false_of_ne h, ih]

theorem lookup_map_pair {κ α β : Type} [BEq κ] [LawfulBEq κ]
    (l : List (κ × α)) (h : κ × α → β) (k : κ) :
    (l.map (fun e => (e.1, h e))).lookup k =
      (l.lookup k).map (fun v => h (k, v)) := by
  induction l with
  | nil => simp [List.lookup]
  | cons e l ih =>
    by_cases hk : k = e.1
    · subst hk; simp [List.lookup]
    · simp [List.lookup, beq_false_of_ne hk, ih]

theorem lookup_filter_pos {κ α : Type} [BEq κ] [LawfulBEq κ]
    (l : List (κ × α)) (p : κ → Bool) (k : κ) (hp : p k = true) :
    (l.filter (fun e => p e.1)).lookup k = l.lookup k := by
  induction l with
  | nil => simp
  | cons e l ih =>
    by_cases hk : k = e.1
    · subst hk; simp [List.filter, hp, List.lookup]
    · cases hpe : p e.1 <;>
        simp [List.filter, hpe, List.lookup, beq_false_of_ne hk, ih]

theorem lookup_filter_neg {κ α : Type} [BEq κ] [LawfulBEq κ]
    (l : List (κ × α)) (p : κ → Bool) (k : κ) (hp : p k = false) :
    (l.filter (fun e => p e.1)).lookup k = none := by
  induction l with
  | nil => simp
  | cons e l ih =>
    by_cases hk : k = e.1
    · subst hk; simp [List.filter, hp, List.lookup, ih]
    · cases hpe : p e.1 <;>
        simp [List.filter, hpe, List.lookup, beq_false_of_ne hk, ih]

theorem neumann_lookup (c_int : IsoConcMap) (r_int : Radius)
    (c_ext : IsoConcMap) (r_ext : Radius) (iso : Iso) :
    (neumann_bc c_int r_int c_ext r_ext).lookup iso =
      if (c_int.lookup iso).isSome ∨ (c_ext.lookup iso).isSome then
        some ((lookupD c_ext iso - lookupD c_int iso) / (r_ext - r_int))
      else none := by
  unfold neumann_bc
  rw [lookup_append]
  rw [lookup_map_pair c_int (fun e =>
    if (c_ext.lookup e.1).isSome then
      calc_conc_grad (lookupD c_ext e.1) (lookupD c_int e.1) r_ext r_int
    else
      calc_conc_grad 0 (lookupD c_int e.1) r_ext r_int) iso]
  rw [lookup_map_pair (c_ext.filter (fun e => (c_int.lookup e.1).isNone))
    (fun e => calc_conc_grad (lookupD c_ext e.1) 0 r_ext r_int) iso]
  cases hint : c_int.lookup iso with
  | some vi =>
    cases hext : c_ext.lookup iso <;>
      simp [hint, hext, calc_conc_grad, lookupD, Option.or]
  | none =>
    rw [lookup_filter_pos c_ext (fun k => (List.lookup k c_int).isNone) iso
      (by simp [hint])]
    cases hext : c_ext.lookup iso <;>
      simp [hint, hext, calc_conc_grad, lookupD, Option.or]

/-- C6: `neumann_bc(c_ext, r_ext)` produces a gradient map keyed by exactly
the union of the isotopes of the internal concentration `c_int` (held at the
radial midpoint `r_int`) and of `c_ext`; each isotope's gradient is the
one-sided difference `(c_ext − c_int)/(r_ext − r_int)`, an isotope missing
on one side contributing concentration 0 on that side. -/
theorem neumann_bc_union_grad (c_int : IsoConcMap) (r_int : Radius)
    (c_ext : IsoConcMap) (r_ext : Radius) (iso : Iso) :
    (neumann_bc c_int r_int c_ext r_ext).lookup iso =
      if (c_int.lookup iso).isSome ∨ (c_ext.lookup iso).isSome then
        some ((lookupD c_ext iso - lookupD c_int iso) / (r_ext - r_int))
      else none :=
  neumann_lookup c_int r_int c_ext r_ext iso

/-- C7: with the external concentration map equal to the internal one and the
external radius equal to the internal radius, `neumann_bc` yields a gradient
of 0 for every isotope. -/
theorem neumann_bc_self_zero (c_int : IsoConcMap) (r_int : Radius)
    (iso : Iso) :
    lookupD (neumann_bc c_int r_int c_int r_int) iso = 0 := by
  rw [lookupD, neumann_lookup]
  split <;> simp

/-- C8: for every isotope of the Neumann gradient map, `cauchy_bc` returns
the flux `−D(element)·gradient + v·dirichlet_concentration`, with the
dispersion coefficient looked up per element `iso / 1000` and the Dirichlet
concentration taken from the cell's snapshot. -/
theorem cauchy_bc_flux (Dtab : Nat → ℚ) (v : ℚ) (c_int : IsoConcMap)
    (r_int : Radius) (c_ext : IsoConcMap) (r_ext : Radius) (iso : Iso) :
    (cauchy_bc Dtab v c_int r_int c_ext r_ext).lookup iso =
      ((neumann_bc c_int r_int c_ext r_ext).lookup iso).map
        (fun g => -Dtab (iso / 1000) * g + v * dirichlet_bc_iso c_int iso) := by
  unfold cauchy_bc
  rw [lookup_map_pair (neumann_bc c_int r_int c_ext r_ext)
    (fun e => -Dtab (e.1 / 1000) * e.2 + dirichlet_bc_iso c_int e.1 * v) iso]
  simp [mul_comm]

/-- C9: `source_term_bc()` returns the current snapshot scaled entrywise by
the pore volume (total volume × porosity) together with a scalar total mass
equal to the sum over isotopes of concentration times pore volume. -/
theorem source_term_bc_spec (c_int : IsoConcMap) (V_T porosity : ℚ) :
    (source_term_bc c_int V_T porosity).2 =
      (c_int.map (fun e => e.2 * V_f_fn V_T porosity)).sum ∧
    ∀ iso, (source_term_bc c_int V_T porosity).1.lookup iso =
      (c_int.lookup iso).map (fun cv => cv * V_f_fn V_T porosity) := by
  constructor
  · simp [source_term_bc, scaleConcMap, List.map_map, Function.comp_def]
  · intro iso
    unfold source_term_bc scaleConcMap
    rw [lookup_map_pair c_int (fun e => e.2 * V_f_fn V_T porosity) iso]

/-- C2: for an isotope with dispersion coefficient `D > 0`, retardation
`R = 1`, radius `r ≥ 0` and times `t > t0 > 0`, the solver
`calculate_conc` returns exactly `C = C0·A + B` with `A`, `B` as the
specification's closed-form advection-dispersion solution
(`calculate_conc_spec`), `C0` and `Ci` being the per-isotope boundary and
initial concentrations. -/
theorem calculate_conc_formula (fns : SolverFns) (v : ℚ) (C_0 C_i : IsoConcMap)
    (r : ℚ) (iso : Iso) (t0 t : ℤ)
    (hD : 0 < fns.Dtab (iso / 1000)) (hr : 0 ≤ r) (ht0 : 0 < t0) (ht : t0 < t) :
    calculate_conc fns v C_0 C_i r iso t0 t =
      calculate_conc_spec fns (fns.Dtab (iso / 1000)) v oneDimR
        (lookupD C_0 iso) (lookupD C_i iso) r t0 t := by
  unfold calculate_conc calculate_conc_spec Att0_val Att0_den
  ring_nf

theorem calculate_conc_formula_witness :
    (0 : ℚ) < testFns.Dtab (92235 / 1000) ∧ (0 : ℚ) ≤ 1 ∧
    (0 : ℤ) < 1 ∧ (1 : ℤ) < 2 ∧
    calculate_conc testFns 1 [(92235, 2)] [(92235, 2)] 1 92235 1 2 =
      calculate_conc_spec testFns (testFns.Dtab (92235 / 1000)) 1 oneDimR
        (lookupD [(92235, 2)] 92235) (lookupD [(92235, 2)] 92235) 1 1 2 :=
  ⟨by decide, by decide, by decide, by decide,
   calculate_conc_formula testFns 1 [(92235, 2)] [(92235, 2)] 1 92235 1 2
     (by decide) (by decide) (by decide) (by decide)⟩

/-- C3 (refuting the claimed guard): `calculate_conc` contains no guard for
`t = t0`. At `t = t0` the denominator of the `Att0` fraction
(`2*pow(D*R*(t-t0),0.5)`, with `pow(0,0.5) = 0`) is exactly 0, so the code
does divide by `t - t0 = 0`; and since `erfc 0 = 1`, the `Att0` contribution
evaluates (under total rational division) to `1/2`, not to the zero
contribution the claim promises. -/
theorem att0_unguarded (fns : SolverFns) (D v r : ℚ) (t : ℤ)
    (hs : fns.sqrtA 0 = 0) (he : fns.erfcA 0 = 1) :
    Att0_den fns D t t = 0 ∧ Att0_val fns D v r t t = 1/2 := by
  have hden : Att0_den fns D t t = 0 := by
    simp [Att0_den, hs]
  refine ⟨hden, ?_⟩
  unfold Att0_val
  rw [hden]
  simp [he]

theorem att0_unguarded_witness :
    testFns.sqrtA 0 = 0 ∧ testFns.erfcA 0 = 1 ∧
    (Att0_den testFns 1 1 1 = 0 ∧ Att0_val testFns 1 1 1 1 1 = 1/2) :=
  ⟨rfl, rfl, att0_unguarded testFns 1 1 1 1 rfl rfl⟩

/-- C4: calling the transport step with a time strictly below the cell's
`last_updated` fails with `PreconditionViolation` (the embedded
`assert(last_updated() <= the_time)`), never silently clamped; with
`t ≥ last_updated` it succeeds and sets `last_updated` to `t`. -/
theorem transport_step_precondition (fns : SolverFns) (s : PPMState) (t : ℤ) :
    (t < s.last_updated →
      transportNuclides fns t s = Except.error CyderErr.PreconditionViolation) ∧
    (s.last_updated ≤ t →
      ∃ s2, transportNuclides fns t s = Except.ok s2 ∧ s2.last_updated = t) := by
  unfold transportNuclides update update_conc_hist update_vec_hist
  constructor
  · intro h
    rw [if_neg (show ¬ (s.last_updated ≤ t) from not_le.mpr h)]
    rfl
  · intro h
    rw [if_pos h]
    exact ⟨_, rfl, rfl⟩

theorem transport_step_precondition_witness :
    testState.last_updated ≤ 3 ∧
    (∃ s2, transportNuclides testFns 3 testState = Except.ok s2 ∧
      s2.last_updated = 3) :=
  ⟨by decide, (transport_step_precondition testFns testState 3).2 (by decide)⟩

theorem lookup_map_replace {α : Type} (h : List (ℤ × α)) (t : ℤ) (m : α) :
    (h.map (fun e => if e.1 = t then (t, m) else e)).lookup t =
      if (h.lookup t).isSome then some m else none := by
  induction h with
  | nil => simp [List.lookup]
  | cons e l ih =>
    simp only [List.map_cons]
    by_cases he : e.1 = t
    · rw [if_pos he]
      simp [List.lookup, he]
    · rw [if_neg he]
      have hbeq : (t == e.1) = false := beq_false_of_ne (fun hh => he hh.symm)
      have h1 : List.lookup t
          (e :: List.map (fun e => if e.1 = t then (t, m) else e) l) =
          List.lookup t (List.map (fun e => if e.1 = t then (t, m) else e) l) := by
        simp [List.lookup, hbeq]
      have h2 : List.lookup t (e :: l) = List.lookup t l := by
        simp [List.lookup, hbeq]
      rw [h1, h2, ih]

theorem lookup_histSet {α : Type} (h : List (ℤ × α)) (t : ℤ) (m : α) :
    (histSet h t m).lookup t = some m := by
  unfold histSet
  split
  next hs => rw [lookup_map_replace]; simp [hs]
  next hs =>
    have hnone : h.lookup t = none := by
      cases hh : h.lookup t with
      | none => rfl
      | some v => rw [hh] at hs; simp at hs
    rw [lookup_append]
    simp [hnone, List.lookup]

/-- C10: a successful transport-step update at time `t` stores at history
key `t` the profile obtained by invoking the solver with the boundary map
`C_0` and the initial map `C_i` both equal to the one ledger-derived
concentration map `ledgerC0` (total parcel mass converted via pore volume),
and with solver time arguments `t0 = t` and `t = t + t`. -/
theorem update_conc_reuses (fns : SolverFns) (s : PPMState) (t : ℤ)
    (h : s.last_updated ≤ t) :
    ∃ s2, update fns s t = Except.ok s2 ∧
      s2.conc_hist.lookup t =
        some (conc_profile fns s.v (ledgerC0 s) s.r_mid t) ∧
      ∀ iso, (conc_profile fns s.v (ledgerC0 s) s.r_mid t).lookup iso =
        ((ledgerC0 s).lookup iso).map
          (fun _ =>
            calculate_conc fns s.v (ledgerC0 s) (ledgerC0 s) s.r_mid iso
              t (t + t)) := by
  have key : update fns s t = Except.ok ({ update_vec_hist s t with last_updated := t, conc_hist := histSet s.conc_hist t (conc_profile fns s.v (ledgerC0 s) s.r_mid t) } : PPMState) := by
    unfold update update_conc_hist
    rw [if_pos (show (update_vec_hist s t).last_updated ≤ t from h)]
    rfl
  refine ⟨_, key, ?_, ?_⟩
  · exact lookup_histSet s.conc_hist t _
  · intro iso
    unfold conc_profile
    rw [lookup_map_pair (ledgerC0 s)
      (fun e => calculate_conc fns s.v (ledgerC0 s) (ledgerC0 s) s.r_mid e.1
        t (t + t)) iso]

theorem update_conc_reuses_witness :
    testState.last_updated ≤ 1 ∧
    (∃ s2, update testFns testState 1 = Except.ok s2 ∧
      s2.conc_hist.lookup 1 =
        some (conc_profile testFns testState.v (ledgerC0 testState)
          testState.r_mid 1) ∧
      ∀ iso, (conc_profile testFns testState.v (ledgerC0 testState)
          testState.r_mid 1).lookup iso =
        ((ledgerC0 testState).lookup iso).map
          (fun _ => calculate_conc testFns testState.v (ledgerC0 testState)
            (ledgerC0 testState) testState.r_mid iso 1 (1 + 1))) :=
  ⟨by decide, update_conc_reuses testFns testState 1 (by decide)⟩

theorem parcelTotal_nonneg (p : Parcel) (hp : ∀ e ∈ p, 0 ≤ Prod.snd e) :
    0 ≤ parcelTotal p := by
  unfold parcelTotal
  apply List.sum_nonneg
  intro x hx
  obtain ⟨e, he, rfl⟩ := List.mem_map.mp hx
  exact hp e he

theorem availTotal_nonneg (ws : List Parcel) (h : ledgerNonneg ws) :
    0 ≤ availTotal ws := by
  unfold availTotal
  apply List.sum_nonneg
  intro x hx
  obtain ⟨p, hp, rfl⟩ := List.mem_map.mp hx
  exact parcelTotal_nonneg p (h p hp)

theorem parcelTotal_scale (p : Parcel) (c : ℚ) :
    parcelTotal (p.map (fun e => (e.1, e.2 * c))) = parcelTotal p * c := by
  unfold parcelTotal
  rw [List.map_map]
  exact List.sum_map_mul_right p Prod.snd c

theorem availTotal_cons (p : Parcel) (ps : List Parcel) :
    availTotal (p :: ps) = parcelTotal p + availTotal ps := by
  simp [availTotal]

theorem availTotal_append (ws1 ws2 : List Parcel) :
    availTotal (ws1 ++ ws2) = availTotal ws1 + availTotal ws2 := by
  simp [availTotal]

theorem takeOldest_spec : ∀ (ws : List Parcel) (need : ℚ), ledgerNonneg ws →
    0 ≤ need → need ≤ availTotal ws →
    availTotal (takeOldest need ws).2 = availTotal ws - need ∧
      ledgerNonneg (takeOldest need ws).2 := by
  intro ws
  induction ws with
  | nil =>
    intro need _ h0 hle
    have hz : need = 0 := le_antisymm (by simpa [availTotal] using hle) h0
    subst hz
    constructor
    · simp [takeOldest, availTotal]
    · intro q hq; simp [takeOldest] at hq
  | cons p ps ih =>
    intro need hn h0 hle
    have hp : ∀ e ∈ p, 0 ≤ Prod.snd e := hn p (List.mem_cons_self p ps)
    have hps : ledgerNonneg ps := fun q hq => hn q (List.mem_cons_of_mem p hq)
    have hT : 0 ≤ parcelTotal p := parcelTotal_nonneg p hp
    unfold takeOldest
    by_cases hc : parcelTotal p ≤ need
    · rw [if_pos hc]
      have h0' : 0 ≤ need - parcelTotal p := sub_nonneg.mpr hc
      have hle' : need - parcelTotal p ≤ availTotal ps := by
        rw [availTotal_cons] at hle; linarith
      obtain ⟨e1, e2⟩ := ih (need - parcelTotal p) hps h0' hle'
      constructor
      · show availTotal (takeOldest (need - parcelTotal p) ps).2 = _
        rw [e1, availTotal_cons]; ring
      · exact e2
    · rw [if_neg hc]
      push_neg at hc
      have hTpos : 0 < parcelTotal p := lt_of_le_of_lt h0 hc
      constructor
      · show availTotal
          (p.map (fun e => (e.1, e.2 * (1 - need / parcelTotal p))) :: ps) = _
        rw [availTotal_cons, parcelTotal_scale, availTotal_cons]
        have hcan : parcelTotal p * (1 - need / parcelTotal p) =
            parcelTotal p - need := by
          field_simp
        rw [hcan]; ring
      · intro q hq
        show ∀ e ∈ q, 0 ≤ Prod.snd e
        rcases List.mem_cons.mp hq with hq1 | hq2
        · subst hq1
          intro e he
          obtain ⟨e0, he0, rfl⟩ := List.mem_map.mp he
          have h1 : 0 ≤ e0.2 := hp e0 he0
          have h2 : 0 ≤ 1 - need / parcelTotal p := by
            rw [sub_nonneg]
            exact (div_le_one hTpos).mpr (le_of_lt hc)
          exact mul_nonneg h1 h2
        · exact hps q hq2

theorem runOps_total : ∀ (ops : List LedgerOp) (ws ws' : List Parcel),
    opsNonneg ops → ledgerNonneg ws → runOps ops ws = Except.ok ws' →
    availTotal ws' = availTotal ws + absorbedSum ops - extractedSum ops ∧
      ledgerNonneg ws' := by
  intro ops
  induction ops with
  | nil =>
    intro ws ws' _ hws h
    simp [runOps] at h
    subst h
    constructor
    · simp [absorbedSum, extractedSum]
    · exact hws
  | cons op ops ih =>
    intro ws ws' hops hws h
    have hops' : opsNonneg ops := fun o ho => hops o (List.mem_cons_of_mem _ ho)
    cases op with
    | absorb p =>
      have hp : opNonneg (LedgerOp.absorb p) := hops _ (List.mem_cons_self _ _)
      have hws' : ledgerNonneg (ws ++ [p]) := by
        intro q hq
        rcases List.mem_append.mp hq with h1 | h2
        · exact hws q h1
        · simp at h2; subst h2; exact hp
      simp only [runOps] at h
      obtain ⟨e1, e2⟩ := ih (ws ++ [p]) ws' hops' hws' h
      refine ⟨?_, e2⟩
      rw [e1, availTotal_append]
      simp [absorbedSum, extractedSum, availTotal]
      ring
    | extract c kg =>
      simp only [runOps] at h
      cases hma : MatTools.extract c kg ws with
      | error e => rw [hma] at h; simp at h
      | ok pr =>
        rw [hma] at h
        simp only [] at h
        have hcond : 0 ≤ kg ∧ kg ≤ availTotal ws ∧
            ∀ e ∈ c, kg * e.2 / parcelTotal c ≤ isoAvail ws e.1 := by
          by_contra hnc
          unfold MatTools.extract at hma
          rw [if_neg hnc] at hma
          exact absurd hma (by simp)
        have hpr : pr = takeOldest kg ws := by
          unfold MatTools.extract at hma
          rw [if_pos hcond] at hma
          exact (Except.ok.inj hma).symm
        obtain ⟨hkg0, hkgle, _⟩ := hcond
        obtain ⟨t1, t2⟩ := takeOldest_spec ws kg hws hkg0 hkgle
        obtain ⟨e1, e2⟩ := ih pr.2 ws' hops' (by rw [hpr]; exact t2) h
        refine ⟨?_, e2⟩
        rw [e1, hpr, t1]
        simp [absorbedSum, extractedSum]
        ring

/-- C1: for every sequence of absorb/extract operations run from an empty
ledger (absorbed parcels having non-negative entries), the final ledger's
total mass equals the sum of absorbed masses minus the sum of successfully
extracted masses, and is non-negative. -/
theorem ledger_mass_conservation (ops : List LedgerOp) (ws' : List Parcel)
    (hops : opsNonneg ops) (h : runOps ops [] = Except.ok ws') :
    availTotal ws' = absorbedSum ops - extractedSum ops ∧
      0 ≤ availTotal ws' := by
  obtain ⟨e1, e2⟩ := runOps_total ops [] ws' hops (by intro q hq; simp at hq) h
  constructor
  · rw [e1]; simp [availTotal]
  · exact availTotal_nonneg ws' e2

theorem ledger_mass_conservation_witness :
    availTotal [[(92235, 6)]] =
      absorbedSum [LedgerOp.absorb [(92235, 10)],
        LedgerOp.extract [(92235, 1)] 4] -
      extractedSum [LedgerOp.absorb [(92235, 10)],
        LedgerOp.extract [(92235, 1)] 4] ∧
    0 ≤ availTotal [[(92235, 6)]] :=
  ledger_mass_conservation
    [LedgerOp.absorb [(92235, 10)], LedgerOp.extract [(92235, 1)] 4]
    [[(92235, 6)]]
    (by norm_num [opsNonneg, opNonneg])
    (by norm_num [runOps, MatTools.extract, takeOldest, availTotal,
      parcelTotal, parcelIso, isoAvail, List.filter])

/-- C5 (refuting trapezoidal exactness): on the constant profile `C(r) = 1`
over `[0, 1]` sampled at the 3 equally spaced radii 0, 1/2, 1, `trap_rule`
returns `4/3`, not the exact integral `1·(1−0) = 1`: the endpoint samples
enter the sum unscaled, and the interior sample is written at vector index
`(size_t)(1/2) = 0`, overwriting the first endpoint term. -/
theorem trap_rule_constant_not_exact :
    trap_rule 0 1 3
      [(0, [(92235, 1)]), (1/2, [(92235, 1)]), (1, [(92235, 1)])] =
      some [(92235, 4/3)] ∧ (4/3 : ℚ) ≠ 1 * (1 - 0) := by
  constructor
  · norm_num [trap_rule, findKeyQ, scaleConcMap, addConcMaps, lookupD,
      List.lookup, List.filter, List.foldl, List.set]
  · norm_num
